import Mathlib

/-!
Verification development for the `dominantcolor` Go package
(k-means dominant-color extraction ported from Chromium's
`ui/gfx/color_analysis`).

The embedding models the clustering engine of `dominantcolor.go` together
with the cluster operations of the cluster file (`kMeanCluster`,
`kMeanClusters`): seeding with uniqueness retries, per-pixel assignment to
the closest cluster, centroid recomputation, convergence detection,
weight-based ranking and the brightness/darkness selection filter.

Modelling conventions, each justified against the source:

* The engine consumes the pre-shrunk pixel grid (the `imaging.Fit` call is
  an external collaborator producing a grid whose sides are capped at 256).
  Image bounds are translated so that the minimum corner is the origin;
  only relative offsets are ever used by the code.
* `image.Image.At(x,y).RGBA()` yields four `uint32` channel samples in
  `[0, 0xffff]`; a pixel is modelled as four naturals.
* Go `uint32` arithmetic is modelled as naturals reduced modulo `2^32`
  (`u32`), and `uint8` casts as reduction modulo `2^256`-free `% 256`.
* `rand.New(rand.NewSource(0))` is a fixed deterministic stream of
  in-bounds coordinates; it is modelled as an explicit stream
  `pts : Nat → Nat × Nat` of sampled coordinates (the spec's swappable
  Sampler).  `rand.Intn(n)` panics for `n ≤ 0`; a computation that would
  panic is modelled as `Option.none`.
* `Closest` returns a pointer into the cluster slice; the model returns
  the index of that element.  `closest.AddPoint` on a `nil` pointer is a
  panic, modelled as `none`.
* `sort.Sort(byWeight(clusters))` promises only its documented contract:
  the result is a permutation of the input that is sorted so that
  `Less(i,j) = (weight i > weight j)` never holds for an inverted pair.
  The ranking step is therefore modelled relationally by `SortSpec`.
-/

namespace DominantColor

/-- One RGBA pixel sample as returned by Go's `Color.RGBA()`:
four `uint32` channel values (alpha-premultiplied, in `[0, 0xffff]`). -/
structure Pix where
  r : Nat
  g : Nat
  b : Nat
  a : Nat
deriving Repr, DecidableEq

/-- The pre-shrunk pixel grid consumed by the clustering engine
(bounds translated to the origin). -/
structure Img where
  width : Nat
  height : Nat
  px : Nat → Nat → Pix

/-- constant `maxSample = 10` of `dominantcolor.go`. -/
def maxSample : Nat := 10

/-- constant `nIterations = 50` of `dominantcolor.go`. -/
def nIterations : Nat := 50

/-- constant `maxBrightness = 665` of `dominantcolor.go`. -/
def maxBrightness : Nat := 665

/-- constant `minDarkness = 100` of `dominantcolor.go`. -/
def minDarkness : Nat := 100

/-- constant `nClustersDefault = 4` of `dominantcolor.go`. -/
def nClustersDefault : Nat := 4

/-- Go `uint32` wrap-around: reduction modulo `2^32`. -/
def u32 (x : Nat) : Nat := x % 4294967296

/-- Go `uint32` subtraction `a - b` (two's-complement wrap-around). -/
def subU32 (a b : Nat) : Nat := (u32 a + (4294967296 - u32 b)) % 4294967296

/-- The 16-bit→8-bit channel conversion `uint8(v / 0x101)` used on every
sampled pixel. -/
def to8 (v : Nat) : Nat := (v / 257) % 256

/-- `kMeanCluster` of the cluster file: `centroid [3]uint8`,
`aggregate [3]uint32`, `counter uint32`, `weight uint32`. -/
structure KMeanCluster where
  centroid0 : Nat
  centroid1 : Nat
  centroid2 : Nat
  aggregate0 : Nat
  aggregate1 : Nat
  aggregate2 : Nat
  counter : Nat
  weight : Nat
deriving Repr, DecidableEq

/-- `(*kMeanCluster).SetCentroid`. -/
def SetCentroid (k : KMeanCluster) (r g b : Nat) : KMeanCluster :=
  { k with centroid0 := r, centroid1 := g, centroid2 := b }

/-- `new(kMeanCluster)` followed by `SetCentroid(r, g, b)`, as performed
when seeding a cluster (all other fields are the Go zero value). -/
def mkCluster (r g b : Nat) : KMeanCluster :=
  SetCentroid ⟨0, 0, 0, 0, 0, 0, 0, 0⟩ r g b

/-- `(*kMeanCluster).IsAtCentroid`: exact centroid equality test. -/
def IsAtCentroid (k : KMeanCluster) (r g b : Nat) : Bool :=
  decide (r = k.centroid0) && decide (g = k.centroid1) && decide (b = k.centroid2)

/-- `(*kMeanCluster).RecomputeCentroid`: when `counter > 0`, each centroid
channel becomes `uint8(aggregate / counter)`, the weight becomes the
counter, and aggregate and counter are cleared; otherwise nothing
changes. -/
def RecomputeCentroid (k : KMeanCluster) : KMeanCluster :=
  if 0 < k.counter then
    { k with
      centroid0 := (k.aggregate0 / k.counter) % 256
      centroid1 := (k.aggregate1 / k.counter) % 256
      centroid2 := (k.aggregate2 / k.counter) % 256
      aggregate0 := 0
      aggregate1 := 0
      aggregate2 := 0
      weight := k.counter
      counter := 0 }
  else k

/-- `(*kMeanCluster).AddPoint`: `uint32` accumulation into the aggregate
and counter. -/
def AddPoint (k : KMeanCluster) (r g b : Nat) : KMeanCluster :=
  { k with
    aggregate0 := u32 (k.aggregate0 + r)
    aggregate1 := u32 (k.aggregate1 + g)
    aggregate2 := u32 (k.aggregate2 + b)
    counter := u32 (k.counter + 1) }

/-- `(*kMeanCluster).GetDistanceSqr`: squared RGB distance computed in
`uint32` arithmetic, wrap-around included, exactly as
`(uint32(r)-uint32(c0))*(uint32(r)-uint32(c0)) + ...`. -/
def GetDistanceSqr (k : KMeanCluster) (r g b : Nat) : Nat :=
  u32 (u32 (u32 (subU32 r k.centroid0 * subU32 r k.centroid0) +
            u32 (subU32 g k.centroid1 * subU32 g k.centroid1)) +
       u32 (subU32 b k.centroid2 * subU32 b k.centroid2))

/-- `(*kMeanCluster).CompareCentroidWithAggregate`: false for an empty
cluster, otherwise per-channel equality of `uint8(aggregate/counter)`
with the current centroid. -/
def CompareCentroidWithAggregate (k : KMeanCluster) : Bool :=
  if k.counter = 0 then false
  else
    decide ((k.aggregate0 / k.counter) % 256 = k.centroid0) &&
    decide ((k.aggregate1 / k.counter) % 256 = k.centroid1) &&
    decide ((k.aggregate2 / k.counter) % 256 = k.centroid2)

/-- `kMeanClusters.ContainsCentroid`. -/
def ContainsCentroid (cs : List KMeanCluster) (r g b : Nat) : Bool :=
  cs.any (fun c => IsAtCentroid c r g b)

/-- Accumulator loop of `kMeanClusters.Closest`: `closest` starts as `nil`
(`none`) and `distanceToClosest` as `math.MaxUint32`; a cluster strictly
closer than the best so far becomes the new best.  The model tracks the
index of the best cluster instead of a pointer to it. -/
def closestAux (r g b : Nat) : List KMeanCluster → Nat → Option Nat → Nat → Option Nat
  | [], _, best, _ => best
  | c :: rest, i, best, bd =>
    let d := GetDistanceSqr c r g b
    if d < bd then closestAux r g b rest (i + 1) (some i) d
    else closestAux r g b rest (i + 1) best bd

/-- `kMeanClusters.Closest`: index of the first cluster at strictly
minimal squared distance, `none` (a `nil` pointer) for an empty set. -/
def Closest (cs : List KMeanCluster) (r g b : Nat) : Option Nat :=
  closestAux r g b cs 0 none 4294967295

/-- In-place update of the list element the returned cluster pointer
refers to. -/
def modifyAt (f : KMeanCluster → KMeanCluster) : List KMeanCluster → Nat → List KMeanCluster
  | [], _ => []
  | c :: rest, 0 => f c :: rest
  | c :: rest, i + 1 => c :: modifyAt f rest i

/-- The pixel visiting order of the assignment loop: `x` from left to
right, `y` inside. -/
def pixels (img : Img) : List Pix :=
  (List.range img.width).flatMap fun x => (List.range img.height).map fun y => img.px x y

/-- Body of the per-pixel assignment: transparent pixels are skipped,
otherwise the pixel is added to its closest cluster.  `none` models the
`nil`-pointer dereference `closest.AddPoint` that Go would perform when
the cluster set is empty. -/
def assignPoint (cs : List KMeanCluster) (p : Pix) : Option (List KMeanCluster) :=
  if p.a = 0 then some cs
  else
    let r := to8 p.r
    let g := to8 p.g
    let b := to8 p.b
    match Closest cs r g b with
    | none => none
    | some i => some (modifyAt (fun k => AddPoint k r g b) cs i)

/-- One full pass of the assignment loop over a pixel list. -/
def assignList (cs : List KMeanCluster) : List Pix → Option (List KMeanCluster)
  | [] => some cs
  | p :: ps =>
    match assignPoint cs p with
    | none => none
    | some cs' => assignList cs' ps

/-- The convergence-and-recompute pass at the end of each round:
`convergence = convergence && c.CompareCentroidWithAggregate()` followed
by `c.RecomputeCentroid()` for every cluster. -/
def convergeStep : List KMeanCluster → List KMeanCluster × Bool
  | [] => ([], true)
  | c :: rest =>
    let conv := CompareCentroidWithAggregate c
    let r := convergeStep rest
    (RecomputeCentroid c :: r.1, conv && r.2)

/-- The bounded iteration loop
`for i := 0; i < nIterations && !convergence && len(clusters) != 0; i++`.
The fuel argument is the remaining round budget. -/
def kmeansIterate (img : Img) : Nat → List KMeanCluster → Option (List KMeanCluster)
  | 0, cs => some cs
  | fuel + 1, cs =>
    if cs.isEmpty then some cs
    else
      match assignList cs (pixels img) with
      | none => none
      | some cs1 =>
        let r := convergeStep cs1
        if r.2 then some r.1 else kmeansIterate img fuel r.1

/-- The inner seeding loop `for j := 0; j < maxSample; j++`: up to `j`
samples are drawn; transparent samples and already-seen centroids are
skipped; a fresh unique color yields a new cluster.  The second component
is the stream position after the attempt.  The outer `none` models the
`rand.Intn` panic on a zero-sized image. -/
def seedTries (img : Img) (pts : Nat → Nat × Nat) :
    Nat → Nat → List KMeanCluster → Option (Option KMeanCluster × Nat)
  | 0, t, _ => some (none, t)
  | j + 1, t, cs =>
    if img.width = 0 ∨ img.height = 0 then none
    else
      let q := pts t
      let p := img.px q.1 q.2
      if p.a = 0 then seedTries img pts j (t + 1) cs
      else
        let r := to8 p.r
        let g := to8 p.g
        let b := to8 p.b
        if ContainsCentroid cs r g b then seedTries img pts j (t + 1) cs
        else some (some (mkCluster r g b), t + 1)

/-- The outer seeding loop `for i := 0; i < nCluster; i++`: each attempt
either appends a freshly seeded cluster or, when no unique color was
found within the retry budget, stops seeding early. -/
def seedClusters (img : Img) (pts : Nat → Nat × Nat) :
    Nat → Nat → List KMeanCluster → Option (List KMeanCluster × Nat)
  | 0, t, cs => some (cs, t)
  | i + 1, t, cs =>
    match seedTries img pts maxSample t cs with
    | none => none
    | some (none, t') => some (cs, t')
    | some (some c, t') => seedClusters img pts i t' (cs ++ [c])

/-- `findClusters` up to (but not including) the final `sort.Sort` call:
seeding followed by the bounded assign/recompute loop.  `none` models a
runtime panic. -/
def findClusters (img : Img) (pts : Nat → Nat × Nat) (nCluster : Nat) :
    Option (List KMeanCluster) :=
  match seedClusters img pts nCluster 0 [] with
  | none => none
  | some (cs, _) => kmeansIterate img nIterations cs

/-- `byWeight.Less(i, j) = a[i].weight > a[j].weight`. -/
def byWeightLess (a b : KMeanCluster) : Bool := decide (b.weight < a.weight)

/-- The documented contract of `sort.Sort(byWeight(clusters))`: the result
is a permutation of the input in which no later element has strictly
larger weight than an earlier one.  `sort.Sort` promises nothing further
(in particular not stability). -/
def SortSpec (l l' : List KMeanCluster) : Prop :=
  l'.Perm l ∧ l'.Pairwise (fun a b => b.weight ≤ a.weight)

/-- The normalization of a requested cluster count:
`if nClusters <= 0 { nClusters = nClustersDefault }` in `FindWeight`. -/
def normN (nc : Int) : Nat := if nc ≤ 0 then nClustersDefault else nc.toNat

/-- `dominantcolor.Color`, with the float64 normalized weight modelled as
a rational. -/
structure ColorW where
  r : Nat
  g : Nat
  b : Nat
  a : Nat
  weight : Rat
deriving Repr, DecidableEq

/-- The color built from one ranked cluster by `FindWeight`: the centroid
with alpha `0xff` and weight `float64(c.weight) / totalWeight` where
`totalWeight = width * height` of the shrunk image. -/
def clusterColor (total : Rat) (c : KMeanCluster) : ColorW :=
  ⟨c.centroid0, c.centroid1, c.centroid2, 255, (c.weight : Rat) / total⟩

/-- `FindWeight(img, nClusters)` as a relation between the input and a
possible output: a ranked output is the color list of some permutation of
the clusters allowed by the `sort.Sort` contract.  No output is related
when the pipeline panics. -/
def FindWeightRel (img : Img) (pts : Nat → Nat × Nat) (nc : Int)
    (out : List ColorW) : Prop :=
  ∃ cs sorted, findClusters img pts (normN nc) = some cs ∧ SortSpec cs sorted ∧
    out = sorted.map (clusterColor ((img.width * img.height : Nat) : Rat))

/-- `color.RGBA`. -/
structure RGBA where
  r : Nat
  g : Nat
  b : Nat
  a : Nat
deriving Repr, DecidableEq

/-- `FindN` drops the weights from the `FindWeight` colors. -/
def toRGBA (c : ColorW) : RGBA := ⟨c.r, c.g, c.b, c.a⟩

/-- The brightness-filter selection loop of `Find`, operating on the
ranked color list returned by `FindN`: the first color whose channel sum
is strictly below `maxBrightness` and strictly above `minDarkness`. -/
def findScan : List RGBA → Option RGBA
  | [] => none
  | c :: rest =>
    if c.r + c.g + c.b < maxBrightness ∧ minDarkness < c.r + c.g + c.b then some c
    else findScan rest

/-- The selection stage of `Find`: the zero color for an empty ranked
list, otherwise the first acceptable color, with the heaviest color as
fallback. -/
def Find (colors : List RGBA) : RGBA :=
  match colors with
  | [] => ⟨0, 0, 0, 0⟩
  | c0 :: rest =>
    match findScan (c0 :: rest) with
    | some c => c
    | none => c0

/-- The full `Find(img)` pipeline as a relation. -/
def FindRel (img : Img) (pts : Nat → Nat × Nat) (nc : Int) (col : RGBA) : Prop :=
  ∃ out, FindWeightRel img pts nc out ∧ col = Find (out.map toRGBA)

/-- The sampler contract: every drawn coordinate is inside the grid
(`rand.Intn(width)` and `rand.Intn(height)` produce such values whenever
they do not panic). -/
def ValidPts (img : Img) (pts : Nat → Nat × Nat) : Prop :=
  ∀ t, (pts t).1 < img.width ∧ (pts t).2 < img.height

/-- Sum of the (un-normalized) cluster weights. -/
def sumWeights (cs : List KMeanCluster) : Nat := (cs.map (·.weight)).sum

/-- Sum of the per-round assignment counters. -/
def sumCounters (cs : List KMeanCluster) : Nat := (cs.map (·.counter)).sum

/-- Sum of the normalized weights of a ranked output. -/
def weightSum (out : List ColorW) : Rat := (out.map (·.weight)).sum

/-- Number of non-transparent pixels in a pixel list. -/
def countOpaque (ps : List Pix) : Nat := ps.countP (fun p => decide (p.a ≠ 0))

/-- Exact squared difference of two channel values: exactly one of the two
truncated differences is nonzero, so this equals `(a - b)²` over the
integers.  The `uint32` computation of `GetDistanceSqr` agrees with it for
`uint8` inputs because the wrap-around of the subtraction cancels in the
square modulo `2^32`. -/
def sqDiff (a b : Nat) : Nat := (a - b) * (a - b) + (b - a) * (b - a)

/-- The representation invariant Go enforces through the `uint8` type of
centroid channels. -/
def Bounded8 (k : KMeanCluster) : Prop :=
  k.centroid0 < 256 ∧ k.centroid1 < 256 ∧ k.centroid2 < 256

/-- Observer of the iteration loop: `true` when in every executed round
every cluster receives at least one pixel (no cluster is starved).  A
starved cluster keeps its stale weight from an earlier round, which is
the one way the weight bookkeeping can over-count. -/
def noStarve (img : Img) : Nat → List KMeanCluster → Bool
  | 0, _ => true
  | fuel + 1, cs =>
    if cs.isEmpty then true
    else
      match assignList cs (pixels img) with
      | none => true
      | some cs1 =>
        cs1.all (fun c => decide (0 < c.counter)) &&
        (if (convergeStep cs1).2 then true else noStarve img fuel (convergeStep cs1).1)

/-- No cluster is starved in any round executed by the full pipeline. -/
def noStarveFind (img : Img) (pts : Nat → Nat × Nat) (nc : Int) : Bool :=
  match seedClusters img pts (normN nc) 0 [] with
  | none => false
  | some (cs, _) => noStarve img nIterations cs

/-- Observer of the iteration loop: the number of assignment rounds the
loop executes (a round cut short by a panic counts once). -/
def kmeansRounds (img : Img) : Nat → List KMeanCluster → Nat
  | 0, _ => 0
  | fuel + 1, cs =>
    if cs.isEmpty then 0
    else
      match assignList cs (pixels img) with
      | none => 1
      | some cs1 =>
        let r := convergeStep cs1
        if r.2 then 1 else 1 + kmeansRounds img fuel r.1

/-- A 5×1 fully opaque image with pixel colors 0, 1, 4, 5, 8 (gray-axis
red channel, 16-bit samples are the 8-bit value times `0x101`). -/
def img5 : Img :=
  ⟨5, 1, fun x _ =>
    ⟨257 * (if x = 0 then 0 else if x = 1 then 1 else if x = 2 then 4
            else if x = 3 then 5 else 8), 0, 0, 65535⟩⟩

/-- A sampling stream drawing the pixels of color 0, then 8, then 1 of
`img5` (all coordinates in bounds). -/
def pts5 : Nat → Nat × Nat :=
  fun t => if t = 0 then (0, 0) else if t = 1 then (4, 0) else (1, 0)

/-- The zero-sized (0×0) image. -/
def imgZero : Img := ⟨0, 0, fun _ _ => ⟨0, 0, 0, 0⟩⟩

/-- A 0×3 image: zero-sized, and (vacuously) all of its pixels are
transparent. -/
def imgZeroT : Img := ⟨0, 3, fun _ _ => ⟨0, 0, 0, 0⟩⟩

/-- An arbitrary sampling stream. -/
def ptsZero : Nat → Nat × Nat := fun _ => (0, 0)

/-- A 2×2 image all of whose pixels are fully transparent. -/
def imgTrans : Img := ⟨2, 2, fun _ _ => ⟨100, 100, 100, 0⟩⟩

/-- A 2×2 fully opaque monochrome image of 8-bit color (7,7,7)
(16-bit channel sample 1799 = 7·0x101). -/
def imgMono : Img := ⟨2, 2, fun _ _ => ⟨1799, 1799, 1799, 65535⟩⟩

/-!  Helper lemmas about the `uint32` distance computation. -/

theorem to8_lt (v : Nat) : to8 v < 256 := Nat.mod_lt _ (by norm_num)

theorem subU32_sq_small {a b : Nat} (ha : a < 256) (hb : b < 256) :
    u32 (subU32 a b * subU32 a b) = sqDiff a b := by
  rcases le_or_lt b a with hba | hba
  · have h1 : subU32 a b = a - b := by unfold subU32 u32; omega
    have h2 : (a - b) * (a - b) < 4294967296 := by
      calc (a - b) * (a - b) ≤ 255 * 255 := Nat.mul_le_mul (by omega) (by omega)
      _ < 4294967296 := by norm_num
    have h3 : b - a = 0 := by omega
    rw [h1]; unfold u32 sqDiff
    rw [h3, Nat.mod_eq_of_lt h2]
    simp
  · have hd : subU32 a b = 4294967296 - (b - a) := by unfold subU32 u32; omega
    have hd2 : b - a < 256 := by omega
    have key : (4294967296 - (b - a)) * (4294967296 - (b - a)) =
        4294967296 * (4294967296 - 2 * (b - a)) + (b - a) * (b - a) := by
      zify [show b - a ≤ 4294967296 by omega, show 2 * (b - a) ≤ 4294967296 by omega]
      ring
    have h3 : a - b = 0 := by omega
    rw [hd]; unfold u32 sqDiff
    rw [key, Nat.mul_add_mod, h3]
    have h4 : (b - a) * (b - a) < 4294967296 := by
      calc (b - a) * (b - a) ≤ 255 * 255 := Nat.mul_le_mul (by omega) (by omega)
      _ < 4294967296 := by norm_num
    rw [Nat.mod_eq_of_lt h4]
    simp

theorem sqDiff_le {a b : Nat} (ha : a < 256) (hb : b < 256) : sqDiff a b ≤ 65025 := by
  unfold sqDiff
  rcases le_or_lt b a with h | h
  · have h3 : b - a = 0 := by omega
    rw [h3]
    calc (a - b) * (a - b) + 0 * 0 = (a - b) * (a - b) := by ring
    _ ≤ 255 * 255 := Nat.mul_le_mul (by omega) (by omega)
  · have h3 : a - b = 0 := by omega
    rw [h3]
    calc 0 * 0 + (b - a) * (b - a) = (b - a) * (b - a) := by ring
    _ ≤ 255 * 255 := Nat.mul_le_mul (by omega) (by omega)

theorem GetDistanceSqr_eq {k : KMeanCluster} (hk : Bounded8 k) {r g b : Nat}
    (hr : r < 256) (hg : g < 256) (hb : b < 256) :
    GetDistanceSqr k r g b =
      sqDiff r k.centroid0 + sqDiff g k.centroid1 + sqDiff b k.centroid2 := by
  obtain ⟨h0, h1, h2⟩ := hk
  unfold GetDistanceSqr
  rw [subU32_sq_small hr h0, subU32_sq_small hg h1, subU32_sq_small hb h2]
  have s0 := sqDiff_le hr h0
  have s1 := sqDiff_le hg h1
  have s2 := sqDiff_le hb h2
  unfold u32
  omega

theorem GetDistanceSqr_lt {k : KMeanCluster} (hk : Bounded8 k) {r g b : Nat}
    (hr : r < 256) (hg : g < 256) (hb : b < 256) :
    GetDistanceSqr k r g b < 4294967295 := by
  rw [GetDistanceSqr_eq hk hr hg hb]
  have s0 := sqDiff_le hr hk.1
  have s1 := sqDiff_le hg hk.2.1
  have s2 := sqDiff_le hb hk.2.2
  omega

/-!  Behaviour of `Closest` and of the pointer-update `modifyAt`. -/

theorem closestAux_some_of_some {r g b : Nat} :
    ∀ (cs : List KMeanCluster) (i j bd : Nat),
      (closestAux r g b cs i (some j) bd).isSome = true := by
  intro cs
  induction cs with
  | nil => intro i j bd; simp [closestAux]
  | cons c rest ih =>
    intro i j bd
    simp only [closestAux]
    split
    · exact ih (i + 1) i _
    · exact ih (i + 1) j bd

theorem closestAux_lt {r g b : Nat} :
    ∀ (cs : List KMeanCluster) (i bd : Nat) (best : Option Nat),
      (∀ j, best = some j → j < i) →
      ∀ kk, closestAux r g b cs i best bd = some kk → kk < i + cs.length := by
  intro cs
  induction cs with
  | nil =>
    intro i bd best hpre kk hk
    have := hpre kk hk
    simpa using Nat.lt_of_lt_of_le this (Nat.le_add_right i 0)
  | cons c rest ih =>
    intro i bd best hpre kk hk
    simp only [closestAux] at hk
    rcases hik : decide (GetDistanceSqr c r g b < bd) with hd | hd
    · rw [if_neg (by simpa using hik)] at hk
      have := ih (i + 1) bd best (fun j hj => Nat.lt_succ_of_lt (hpre j hj)) kk hk
      simpa [Nat.succ_add] using this
    · rw [if_pos (by simpa using hik)] at hk
      have := ih (i + 1) _ (some i) (fun j hj => by cases hj; omega) kk hk
      simpa [Nat.succ_add] using this

theorem Closest_lt_length {cs : List KMeanCluster} {r g b i : Nat}
    (h : Closest cs r g b = some i) : i < cs.length := by
  have := closestAux_lt cs 0 4294967295 none (by intro j hj; cases hj) i h
  simpa using this

theorem Closest_isSome {cs : List KMeanCluster} (h : cs ≠ [])
    (hb : ∀ c ∈ cs, Bounded8 c) {r g b : Nat}
    (hr : r < 256) (hg : g < 256) (hbl : b < 256) :
    (Closest cs r g b).isSome = true := by
  match cs, h with
  | c :: rest, _ =>
    have hc : Bounded8 c := hb c (List.mem_cons_self c rest)
    unfold Closest
    simp only [closestAux]
    rw [if_pos (GetDistanceSqr_lt hc hr hg hbl)]
    exact closestAux_some_of_some rest 1 0 _

theorem modifyAt_length (f : KMeanCluster → KMeanCluster) :
    ∀ (cs : List KMeanCluster) (i : Nat), (modifyAt f cs i).length = cs.length := by
  intro cs
  induction cs with
  | nil => intro i; rfl
  | cons c rest ih =>
    intro i
    cases i with
    | zero => rfl
    | succ i => simp [modifyAt, ih i]

theorem modifyAt_forall {P : KMeanCluster → Prop} {f : KMeanCluster → KMeanCluster}
    (hf : ∀ c, P c → P (f c)) :
    ∀ (cs : List KMeanCluster) (i : Nat), (∀ c ∈ cs, P c) → ∀ c ∈ modifyAt f cs i, P c := by
  intro cs
  induction cs with
  | nil => intro i h c hc; cases hc
  | cons c0 rest ih =>
    intro i h c hc
    cases i with
    | zero =>
      rcases List.mem_cons.mp hc with h1 | h1
      · exact h1 ▸ hf c0 (h c0 (List.mem_cons_self c0 rest))
      · exact h c (List.mem_cons_of_mem c0 h1)
    | succ i =>
      rcases List.mem_cons.mp hc with h1 | h1
      · exact h1 ▸ h c0 (List.mem_cons_self c0 rest)
      · exact ih i (fun x hx => h x (List.mem_cons_of_mem c0 hx)) c h1

theorem AddPoint_bounded {k : KMeanCluster} {r g b : Nat} (h : Bounded8 k) :
    Bounded8 (AddPoint k r g b) := h

/-- C5: `RecomputeCentroid`, when `counter > 0`, sets each centroid channel
to `floor(aggregate/counter)`, sets `weight` to `counter`, and resets
`aggregate` and `counter` to zero; when `counter == 0` it leaves the whole
cluster unchanged.  The divisions stay below 256 because the aggregate of
a cluster holding `counter` 8-bit samples is at most `255 * counter`, so
the `uint8` cast in the source is the identity. -/
theorem recomputeCentroid_spec (k : KMeanCluster) :
    (k.counter = 0 → RecomputeCentroid k = k) ∧
    (0 < k.counter →
      k.aggregate0 ≤ 255 * k.counter →
      k.aggregate1 ≤ 255 * k.counter →
      k.aggregate2 ≤ 255 * k.counter →
      RecomputeCentroid k =
        ⟨k.aggregate0 / k.counter, k.aggregate1 / k.counter, k.aggregate2 / k.counter,
         0, 0, 0, 0, k.counter⟩) := by
  constructor
  · intro h
    unfold RecomputeCentroid
    rw [if_neg (by omega)]
  · intro h h0 h1 h2
    have d0 : k.aggregate0 / k.counter < 256 := by
      rw [Nat.div_lt_iff_lt_mul h]; omega
    have d1 : k.aggregate1 / k.counter < 256 := by
      rw [Nat.div_lt_iff_lt_mul h]; omega
    have d2 : k.aggregate2 / k.counter < 256 := by
      rw [Nat.div_lt_iff_lt_mul h]; omega
    unfold RecomputeCentroid
    rw [if_pos h, Nat.mod_eq_of_lt d0, Nat.mod_eq_of_lt d1, Nat.mod_eq_of_lt d2]

/-- Witness for C5 at two concrete cluster states, one with `counter = 4`
and one with `counter = 0`. -/
theorem recomputeCentroid_spec_witness :
    RecomputeCentroid ⟨1, 2, 3, 10, 20, 30, 4, 7⟩ = ⟨2, 5, 7, 0, 0, 0, 0, 4⟩ ∧
    RecomputeCentroid ⟨1, 2, 3, 0, 0, 0, 0, 7⟩ = ⟨1, 2, 3, 0, 0, 0, 0, 7⟩ :=
  ⟨(recomputeCentroid_spec ⟨1, 2, 3, 10, 20, 30, 4, 7⟩).2 (by decide) (by decide)
      (by decide) (by decide),
   (recomputeCentroid_spec ⟨1, 2, 3, 0, 0, 0, 0, 7⟩).1 (by decide)⟩

/-- C6: `CompareCentroidWithAggregate` is true exactly when `counter > 0`
and every channel of `aggregate/counter`, truncated toward zero, equals
the corresponding centroid channel; in particular it is false whenever
`counter = 0`.  As in C5, the aggregate of `counter` 8-bit samples makes
the `uint8` cast the identity. -/
theorem compareCentroidWithAggregate_spec (k : KMeanCluster)
    (h0 : k.aggregate0 ≤ 255 * k.counter)
    (h1 : k.aggregate1 ≤ 255 * k.counter)
    (h2 : k.aggregate2 ≤ 255 * k.counter) :
    CompareCentroidWithAggregate k = true ↔
      0 < k.counter ∧
      k.aggregate0 / k.counter = k.centroid0 ∧
      k.aggregate1 / k.counter = k.centroid1 ∧
      k.aggregate2 / k.counter = k.centroid2 := by
  unfold CompareCentroidWithAggregate
  rcases Nat.eq_zero_or_pos k.counter with hc | hc
  · rw [if_pos hc]
    simp [hc]
  · have d0 : k.aggregate0 / k.counter < 256 := by
      rw [Nat.div_lt_iff_lt_mul hc]; omega
    have d1 : k.aggregate1 / k.counter < 256 := by
      rw [Nat.div_lt_iff_lt_mul hc]; omega
    have d2 : k.aggregate2 / k.counter < 256 := by
      rw [Nat.div_lt_iff_lt_mul hc]; omega
    rw [if_neg (by omega), Nat.mod_eq_of_lt d0, Nat.mod_eq_of_lt d1, Nat.mod_eq_of_lt d2]
    simp [hc, and_assoc]

/-- Witness for C6 at concrete cluster states: a converged one with
`counter = 4` and an empty one with `counter = 0`. -/
theorem compareCentroidWithAggregate_spec_witness :
    CompareCentroidWithAggregate ⟨2, 5, 7, 10, 20, 30, 4, 0⟩ = true ∧
    CompareCentroidWithAggregate ⟨0, 0, 0, 0, 0, 0, 0, 5⟩ ≠ true :=
  ⟨(compareCentroidWithAggregate_spec ⟨2, 5, 7, 10, 20, 30, 4, 0⟩
      (by decide) (by decide) (by decide)).mpr (by decide),
   fun h => by
    have := (compareCentroidWithAggregate_spec ⟨0, 0, 0, 0, 0, 0, 0, 5⟩
      (by decide) (by decide) (by decide)).mp h
    exact absurd this.1 (by decide)⟩

/-!  The brightness/darkness selection loop of `Find`. -/

theorem findScan_eq_none :
    ∀ cs : List RGBA, findScan cs = none →
      ∀ c ∈ cs, ¬(c.r + c.g + c.b < maxBrightness ∧ minDarkness < c.r + c.g + c.b) := by
  intro cs
  induction cs with
  | nil => intro _ c hc; cases hc
  | cons c0 rest ih =>
    intro h c hc
    unfold findScan at h
    by_cases hp : c0.r + c0.g + c0.b < maxBrightness ∧ minDarkness < c0.r + c0.g + c0.b
    · rw [if_pos hp] at h; cases h
    · rw [if_neg hp] at h
      rcases List.mem_cons.mp hc with h1 | h1
      · exact h1 ▸ hp
      · exact ih h c h1

theorem findScan_eq_some :
    ∀ (cs : List RGBA) (c : RGBA), findScan cs = some c →
      ∃ i : Fin cs.length, cs.get i = c ∧
        ((cs.get i).r + (cs.get i).g + (cs.get i).b < maxBrightness ∧
         minDarkness < (cs.get i).r + (cs.get i).g + (cs.get i).b) ∧
        ∀ j : Fin cs.length, j.val < i.val →
          ¬((cs.get j).r + (cs.get j).g + (cs.get j).b < maxBrightness ∧
            minDarkness < (cs.get j).r + (cs.get j).g + (cs.get j).b) := by
  intro cs
  induction cs with
  | nil => intro c h; cases h
  | cons c0 rest ih =>
    intro c h
    unfold findScan at h
    by_cases hp : c0.r + c0.g + c0.b < maxBrightness ∧ minDarkness < c0.r + c0.g + c0.b
    · rw [if_pos hp] at h
      injection h with h
      subst h
      exact ⟨⟨0, by simp⟩, rfl, hp, fun j hj => absurd hj (by simp)⟩
    · rw [if_neg hp] at h
      obtain ⟨i, hg, hpi, hmin⟩ := ih c h
      refine ⟨⟨i.val + 1, by simpa using Nat.succ_lt_succ i.isLt⟩, ?_, ?_, ?_⟩
      · simpa using hg
      · simpa using hpi
      · intro j hj
        match j with
        | ⟨0, h0⟩ => simpa using hp
        | ⟨jv + 1, hjv⟩ =>
          have hlt : jv < i.val := by simpa using hj
          have := hmin ⟨jv, by omega⟩ hlt
          simpa using this

/-- C4: on a non-empty ranked color list, `Find` returns the first color
whose channel sum `R+G+B` lies strictly between `minDarkness = 100` and
`maxBrightness = 665`; when no color qualifies it falls back to the
heaviest (first-ranked) color. -/
theorem find_brightness_filter (colors : List RGBA) (h : colors ≠ []) :
    (∃ i : Fin colors.length,
       Find colors = colors.get i ∧
       (minDarkness < (colors.get i).r + (colors.get i).g + (colors.get i).b ∧
        (colors.get i).r + (colors.get i).g + (colors.get i).b < maxBrightness) ∧
       ∀ j : Fin colors.length, j.val < i.val →
         ¬(minDarkness < (colors.get j).r + (colors.get j).g + (colors.get j).b ∧
           (colors.get j).r + (colors.get j).g + (colors.get j).b < maxBrightness)) ∨
    ((∀ c ∈ colors,
       ¬(minDarkness < c.r + c.g + c.b ∧ c.r + c.g + c.b < maxBrightness)) ∧
     Find colors = colors.head h) := by
  match colors, h with
  | c0 :: rest, _ =>
    rcases hs : findScan (c0 :: rest) with _ | c
    · right
      constructor
      · intro c hc hcon
        exact findScan_eq_none _ hs c hc ⟨hcon.2, hcon.1⟩
      · have hF : Find (c0 :: rest) =
            (match findScan (c0 :: rest) with | some c => c | none => c0) := rfl
        rw [hF, hs]
        rfl
    · left
      obtain ⟨i, hg, hpi, hmin⟩ := findScan_eq_some _ c hs
      refine ⟨i, ?_, ⟨hpi.2, hpi.1⟩, fun j hj hcon => hmin j hj ⟨hcon.2, hcon.1⟩⟩
      have hF : Find (c0 :: rest) =
          (match findScan (c0 :: rest) with | some c => c | none => c0) := rfl
      rw [hF, hs, hg]

/-- Witness for C4: on a singleton acceptable list the theorem forces the
selected index to be 0. -/
theorem find_brightness_filter_witness :
    Find [⟨150, 150, 150, 255⟩] = ⟨150, 150, 150, 255⟩ := by
  rcases find_brightness_filter [⟨150, 150, 150, 255⟩] (by decide) with
    ⟨i, hi, _, _⟩ | ⟨_, hh⟩
  · have h1 : i.val < 1 := by simpa using i.isLt
    have h0 : i = ⟨0, by decide⟩ := Fin.ext (by simpa using Nat.lt_one_iff.mp h1)
    rw [h0] at hi
    exact hi
  · exact hh

/-!  Safety of the assignment loop. -/

instance (k : KMeanCluster) : Decidable (Bounded8 k) := by
  unfold Bounded8
  infer_instance

theorem RecomputeCentroid_bounded {k : KMeanCluster} (h : Bounded8 k) :
    Bounded8 (RecomputeCentroid k) := by
  unfold RecomputeCentroid
  split
  · exact ⟨Nat.mod_lt _ (by norm_num), Nat.mod_lt _ (by norm_num),
      Nat.mod_lt _ (by norm_num)⟩
  · exact h

theorem RecomputeCentroid_counter (k : KMeanCluster) :
    (RecomputeCentroid k).counter = 0 := by
  unfold RecomputeCentroid
  split
  · rfl
  · omega

theorem assignList_sound : ∀ (ps : List Pix) (cs : List KMeanCluster),
    cs ≠ [] → (∀ c ∈ cs, Bounded8 c) →
    ∃ cs', assignList cs ps = some cs' ∧ cs'.length = cs.length ∧
      ∀ c ∈ cs', Bounded8 c := by
  intro ps
  induction ps with
  | nil => intro cs _ hb; exact ⟨cs, rfl, rfl, hb⟩
  | cons p ps ih =>
    intro cs h hb
    by_cases hp : p.a = 0
    · obtain ⟨cs', h1, h2, h3⟩ := ih cs h hb
      refine ⟨cs', ?_, h2, h3⟩
      simp only [assignList, assignPoint, if_pos hp]
      exact h1
    · have hsome := Closest_isSome h hb (to8_lt p.r) (to8_lt p.g) (to8_lt p.b)
      obtain ⟨i, hi⟩ := Option.isSome_iff_exists.mp hsome
      have hlen := modifyAt_length (fun k => AddPoint k (to8 p.r) (to8 p.g) (to8 p.b)) cs i
      have hb1 : ∀ c ∈ modifyAt (fun k => AddPoint k (to8 p.r) (to8 p.g) (to8 p.b)) cs i,
          Bounded8 c :=
        modifyAt_forall (fun c hc => AddPoint_bounded hc) cs i hb
      have hne1 : modifyAt (fun k => AddPoint k (to8 p.r) (to8 p.g) (to8 p.b)) cs i ≠ [] := by
        intro hcon
        apply h
        have : cs.length = 0 := by rw [← hlen, hcon]; rfl
        exact List.length_eq_zero.mp this
      obtain ⟨cs', h1, h2, h3⟩ := ih _ hne1 hb1
      refine ⟨cs', ?_, by rw [h2, hlen], h3⟩
      simp only [assignList, assignPoint, if_neg hp, hi]
      exact h1

theorem convergeStep_length : ∀ cs : List KMeanCluster,
    (convergeStep cs).1.length = cs.length := by
  intro cs
  induction cs with
  | nil => rfl
  | cons c rest ih => simp [convergeStep, ih]

theorem convergeStep_bounded : ∀ cs : List KMeanCluster,
    (∀ c ∈ cs, Bounded8 c) → ∀ c ∈ (convergeStep cs).1, Bounded8 c := by
  intro cs
  induction cs with
  | nil => intro _ c hc; cases hc
  | cons c0 rest ih =>
    intro h c hc
    simp only [convergeStep] at hc
    rcases List.mem_cons.mp hc with h1 | h1
    · exact h1 ▸ RecomputeCentroid_bounded (h c0 (List.mem_cons_self c0 rest))
    · exact ih (fun x hx => h x (List.mem_cons_of_mem c0 hx)) c h1

theorem convergeStep_counter_zero : ∀ cs : List KMeanCluster,
    ∀ c ∈ (convergeStep cs).1, c.counter = 0 := by
  intro cs
  induction cs with
  | nil => intro c hc; cases hc
  | cons c0 rest ih =>
    intro c hc
    simp only [convergeStep] at hc
    rcases List.mem_cons.mp hc with h1 | h1
    · exact h1 ▸ RecomputeCentroid_counter c0
    · exact ih c h1

theorem kmeansIterate_isSome : ∀ (img : Img) (fuel : Nat) (cs : List KMeanCluster),
    (∀ c ∈ cs, Bounded8 c) → (kmeansIterate img fuel cs).isSome = true := by
  intro img fuel
  induction fuel with
  | zero => intro cs _; rfl
  | succ fuel ih =>
    intro cs hb
    by_cases he : cs.isEmpty = true
    · simp [kmeansIterate, he]
    · have hne : cs ≠ [] := by
        intro hcon
        exact he (by rw [hcon]; rfl)
      obtain ⟨cs', h1, h2, h3⟩ := assignList_sound (pixels img) cs hne hb
      simp only [kmeansIterate, he, if_false, h1]
      have hb2 := convergeStep_bounded cs' h3
      by_cases hc : (convergeStep cs').2 = true
      · simp [hc]
      · simp only [hc, if_false]
        exact ih _ hb2

/-- C10: `Closest` on an empty cluster set returns no cluster (`nil`), on
a non-empty set it always returns one, and the assignment loop inside the
iteration never dereferences a missing cluster: `kmeansIterate` never
reaches the `nil`-pointer `AddPoint` (it never returns the panic value),
because assignment only happens while the cluster list is non-empty. -/
theorem closest_empty_safety :
    (∀ r g b, Closest [] r g b = none) ∧
    (∀ (cs : List KMeanCluster) (r g b : Nat), r < 256 → g < 256 → b < 256 →
      (∀ c ∈ cs, Bounded8 c) → (Closest cs r g b).isSome = !cs.isEmpty) ∧
    (∀ (img : Img) (fuel : Nat) (cs : List KMeanCluster), (∀ c ∈ cs, Bounded8 c) →
      (kmeansIterate img fuel cs).isSome = true) := by
  refine ⟨fun r g b => rfl, fun cs r g b hr hg hb hbd => ?_, kmeansIterate_isSome⟩
  cases cs with
  | nil => rfl
  | cons c rest =>
    rw [Closest_isSome (by simp) hbd hr hg hb]
    rfl

/-- Witness for C10 at concrete inputs. -/
theorem closest_empty_safety_witness :
    Closest [] 1 2 3 = none ∧
    (Closest [mkCluster 5 5 5] 1 2 3).isSome = !([mkCluster 5 5 5].isEmpty) ∧
    (kmeansIterate imgMono 50 [mkCluster 5 5 5]).isSome = true :=
  ⟨closest_empty_safety.1 1 2 3,
   closest_empty_safety.2.1 [mkCluster 5 5 5] 1 2 3 (by decide) (by decide) (by decide)
     (by decide),
   closest_empty_safety.2.2 imgMono 50 [mkCluster 5 5 5] (by decide)⟩

/-!  Resource bounds: the round budget and the seed-retry budget. -/

theorem kmeansRounds_le : ∀ (img : Img) (fuel : Nat) (cs : List KMeanCluster),
    kmeansRounds img fuel cs ≤ fuel := by
  intro img fuel
  induction fuel with
  | zero => intro cs; exact Nat.le_refl 0
  | succ fuel ih =>
    intro cs
    by_cases he : cs.isEmpty = true
    · simp [kmeansRounds, he]
    · rcases hA : assignList cs (pixels img) with _ | cs1
      · have hg : kmeansRounds img (fuel + 1) cs = 1 := by
          simp [kmeansRounds, he, hA]
        rw [hg]
        omega
      · by_cases hc : (convergeStep cs1).2 = true
        · have hg : kmeansRounds img (fuel + 1) cs = 1 := by
            simp [kmeansRounds, he, hA, hc]
          rw [hg]
          omega
        · have hg : kmeansRounds img (fuel + 1) cs =
              1 + kmeansRounds img fuel (convergeStep cs1).1 := by
            simp [kmeansRounds, he, hA, hc]
          rw [hg]
          have := ih (convergeStep cs1).1
          omega

theorem seedTries_pos_le : ∀ (img : Img) (pts : Nat → Nat × Nat) (j t : Nat)
    (cs : List KMeanCluster) (res : Option KMeanCluster × Nat),
    seedTries img pts j t cs = some res → res.2 ≤ t + j := by
  intro img pts j
  induction j with
  | zero =>
    intro t cs res h
    simp only [seedTries] at h
    cases h
    simp
  | succ j ih =>
    intro t cs res h
    simp only [seedTries] at h
    split at h
    · cases h
    · split at h
      · have := ih (t + 1) cs res h
        omega
      · split at h
        · have := ih (t + 1) cs res h
          omega
        · cases h
          simp

theorem seedClusters_pos_le : ∀ (img : Img) (pts : Nat → Nat × Nat) (n t : Nat)
    (acc : List KMeanCluster) (res : List KMeanCluster × Nat),
    seedClusters img pts n t acc = some res → res.2 ≤ t + n * maxSample := by
  intro img pts n
  induction n with
  | zero =>
    intro t acc res h
    simp only [seedClusters] at h
    cases h
    simp
  | succ n ih =>
    intro t acc res h
    simp only [seedClusters] at h
    rcases hT : seedTries img pts maxSample t acc with _ | ⟨oc, t'⟩
    · rw [hT] at h; cases h
    · rw [hT] at h
      have ht' : t' ≤ t + maxSample :=
        seedTries_pos_le img pts maxSample t acc (oc, t') hT
      cases oc with
      | none =>
        cases h
        simp only [maxSample] at ht' ⊢
        omega
      | some c =>
        have := ih t' (acc ++ [c]) res h
        simp only [maxSample] at ht' this ⊢
        omega

/-- C9: the assign/recompute loop executes at most `nIterations = 50`
rounds, and seeding draws at most `maxSample = 10` samples per cluster
attempt (so at most `n * 10` in total): the budgets alone bound the whole
clustering run for an image of any size, with no external cancellation. -/
theorem clustering_budgets :
    (∀ (img : Img) (cs : List KMeanCluster), kmeansRounds img nIterations cs ≤ 50) ∧
    (∀ (img : Img) (pts : Nat → Nat × Nat) (n : Nat) (res : List KMeanCluster × Nat),
      seedClusters img pts n 0 [] = some res → res.2 ≤ n * maxSample) := by
  constructor
  · intro img cs
    exact kmeansRounds_le img nIterations cs
  · intro img pts n res h
    have := seedClusters_pos_le img pts n 0 [] res h
    simpa using this

/-- Witness for C9: concrete loop-round and sample-position bounds on the
2×2 monochrome image. -/
theorem clustering_budgets_witness :
    kmeansRounds imgMono nIterations [mkCluster 7 7 7] ≤ 50 ∧
    (([mkCluster 7 7 7], 11) : List KMeanCluster × Nat).2 ≤ 4 * maxSample :=
  ⟨clustering_budgets.1 imgMono [mkCluster 7 7 7],
   clustering_budgets.2 imgMono ptsZero 4 ([mkCluster 7 7 7], 11) (by decide)⟩

/-!  Degenerate inputs: zero-sized and fully transparent images. -/

/-- C3 (amended): on a zero-sized pixel grid the seeding step invokes the
random coordinate generator with an empty range — `rand.Intn(0)`, a
runtime panic — before any clustering happens, whenever at least one
cluster is requested.  The engine does not return an empty result there. -/
theorem findClusters_zero_size (img : Img) (pts : Nat → Nat × Nat) (n : Nat)
    (hz : img.width = 0 ∨ img.height = 0) (hn : 0 < n) :
    findClusters img pts n = none := by
  have hT : seedTries img pts maxSample 0 [] = none := by
    show seedTries img pts (9 + 1) 0 [] = none
    simp only [seedTries]
    rw [if_pos hz]
  match n, hn with
  | n + 1, _ =>
    unfold findClusters
    have hS : seedClusters img pts (n + 1) 0 [] = none := by
      simp only [seedClusters, hT]
    rw [hS]

/-- Witness for C3 (amended) at the concrete 0×0 image with the default
four requested clusters. -/
theorem findClusters_zero_size_witness : findClusters imgZero ptsZero 4 = none :=
  findClusters_zero_size imgZero ptsZero 4 (Or.inl rfl) (by decide)

/-- Counterexample to C3 as stated: for the 0×0 image the clustering does
not gracefully yield zero clusters — it hits the `rand.Intn(0)` panic
(the model's `none`). -/
theorem findClusters_zero_size_cex :
    findClusters imgZero ptsZero 4 = none ∧
    ((findClusters imgZero ptsZero 4 = some []) = False) :=
  ⟨by decide, eq_false (by decide)⟩

theorem seedTries_transparent (img : Img) (pts : Nat → Nat × Nat)
    (hw : 0 < img.width) (hh : 0 < img.height) (hv : ValidPts img pts)
    (ht : ∀ x y, x < img.width → y < img.height → (img.px x y).a = 0) :
    ∀ (j t : Nat) (cs : List KMeanCluster),
      seedTries img pts j t cs = some (none, t + j) := by
  intro j
  induction j with
  | zero => intro t cs; simp [seedTries]
  | succ j ih =>
    intro t cs
    have hz : ¬(img.width = 0 ∨ img.height = 0) := by omega
    have ha : (img.px (pts t).1 (pts t).2).a = 0 :=
      ht (pts t).1 (pts t).2 (hv t).1 (hv t).2
    simp only [seedTries]
    rw [if_neg hz, if_pos ha, ih (t + 1) cs]
    have : t + 1 + j = t + (j + 1) := by omega
    rw [this]

/-- C8 (amended): for every non-empty image all of whose pixels are fully
transparent, seeding never finds an opaque sample, so the clustering
yields zero clusters, `FindN`/`FindWeight` return an empty list, and
`Find` returns the zero color `(0,0,0,0)` rather than failing.  A
zero-sized image is excluded: there the pipeline panics (see C3). -/
theorem transparent_image (img : Img) (pts : Nat → Nat × Nat) (nc : Int)
    (hw : 0 < img.width) (hh : 0 < img.height) (hv : ValidPts img pts)
    (ht : ∀ x y, x < img.width → y < img.height → (img.px x y).a = 0) :
    findClusters img pts (normN nc) = some [] ∧
    (∀ out, FindWeightRel img pts nc out → out = []) ∧
    (∀ col, FindRel img pts nc col → col = ⟨0, 0, 0, 0⟩) := by
  have hFC : findClusters img pts (normN nc) = some [] := by
    unfold findClusters
    have hS : seedClusters img pts (normN nc) 0 [] = some ([], 0 + normN nc * 0 + if normN nc = 0 then 0 else maxSample) := by
      cases hn : normN nc with
      | zero => simp [seedClusters]
      | succ m =>
        simp only [seedClusters, seedTries_transparent img pts hw hh hv ht maxSample 0 []]
        simp
    rw [hS]
    cases hn : nIterations with
    | zero => rfl
    | succ m => simp [kmeansIterate]
  refine ⟨hFC, fun out hout => ?_, fun col hcol => ?_⟩
  · obtain ⟨cs, sorted, h1, ⟨hperm, _⟩, h3⟩ := hout
    rw [hFC] at h1
    injection h1 with h1
    subst h1
    have : sorted = [] := List.Perm.eq_nil hperm
    subst this
    simpa using h3
  · obtain ⟨out, hout, hcolv⟩ := hcol
    have : out = [] := by
      obtain ⟨cs, sorted, h1, ⟨hperm, _⟩, h3⟩ := hout
      rw [hFC] at h1
      injection h1 with h1
      subst h1
      have : sorted = [] := List.Perm.eq_nil hperm
      subst this
      simpa using h3
    subst this
    simpa using hcolv

/-- Witness for C8 (amended) at the concrete 2×2 fully transparent
image. -/
theorem transparent_image_witness : findClusters imgTrans ptsZero (normN 4) = some [] :=
  (transparent_image imgTrans ptsZero 4 (by decide) (by decide)
    (fun _ => ⟨Nat.zero_lt_two, Nat.zero_lt_two⟩) (fun x y _ _ => rfl)).1

/-- Counterexample to C8 as stated: the 0×3 image has no pixels, so all
of its pixels are (vacuously) fully transparent, yet the clustering does
not return zero clusters — it panics in `rand.Intn` (the model's
`none`). -/
theorem transparent_image_cex :
    countOpaque (pixels imgZeroT) = 0 ∧
    ((findClusters imgZeroT ptsZero 4 = some []) = False) :=
  ⟨by decide, eq_false (by decide)⟩

/-!  The final ranking step. -/

/-- C2 (amended): the final ranking step sorts the cluster list by weight
in descending order: every outcome permitted by the `sort.Sort` contract
is a weight-descending permutation of the clusters, and at least one such
outcome exists.  Stability is not part of the contract: no tie-breaking
order between equal weights is guaranteed (the code uses `sort.Sort`,
which is documented as unstable, not `sort.Stable`). -/
theorem ranking_sorts_by_weight (img : Img) (pts : Nat → Nat × Nat) (n : Nat)
    (cs : List KMeanCluster) (h : findClusters img pts n = some cs) :
    ∃ out, SortSpec cs out ∧
      ∀ out', SortSpec cs out' →
        out'.Perm cs ∧ out'.Pairwise (fun a b => b.weight ≤ a.weight) := by
  haveI hto : IsTotal KMeanCluster (fun a b => b.weight ≤ a.weight) :=
    ⟨fun a b => le_total b.weight a.weight⟩
  haveI htr : IsTrans KMeanCluster (fun a b => b.weight ≤ a.weight) :=
    ⟨fun a b c h1 h2 => le_trans h2 h1⟩
  refine ⟨cs.insertionSort (fun a b => b.weight ≤ a.weight), ⟨?_, ?_⟩,
    fun out' hs => ⟨hs.1, hs.2⟩⟩
  · exact List.perm_insertionSort _ cs
  · exact List.sorted_insertionSort _ cs

/-- Witness for C2 (amended) at the clusters computed from the 2×2
monochrome image. -/
theorem ranking_sorts_by_weight_witness :
    ∃ out, SortSpec [⟨7, 7, 7, 0, 0, 0, 0, 4⟩] out ∧
      ∀ out', SortSpec [⟨7, 7, 7, 0, 0, 0, 0, 4⟩] out' →
        out'.Perm [⟨7, 7, 7, 0, 0, 0, 0, 4⟩] ∧
        out'.Pairwise (fun a b => b.weight ≤ a.weight) :=
  ranking_sorts_by_weight imgMono ptsZero 4 [⟨7, 7, 7, 0, 0, 0, 0, 4⟩] (by decide)

/-- Counterexample to C2 as stated: two clusters of equal weight may come
out of the ranking step in flipped order — the flipped list is a
permutation sorted by weight descending, so the `sort.Sort` contract
permits it, yet it does not preserve the pre-sort order of the
equal-weight pair. -/
theorem ranking_not_stable_cex :
    SortSpec [⟨1, 1, 1, 0, 0, 0, 0, 5⟩, ⟨2, 2, 2, 0, 0, 0, 0, 5⟩]
      [⟨2, 2, 2, 0, 0, 0, 0, 5⟩, ⟨1, 1, 1, 0, 0, 0, 0, 5⟩] ∧
    (⟨1, 1, 1, 0, 0, 0, 0, 5⟩ : KMeanCluster).weight =
      (⟨2, 2, 2, 0, 0, 0, 0, 5⟩ : KMeanCluster).weight ∧
    (([⟨2, 2, 2, 0, 0, 0, 0, 5⟩, ⟨1, 1, 1, 0, 0, 0, 0, 5⟩] : List KMeanCluster) =
      [⟨1, 1, 1, 0, 0, 0, 0, 5⟩, ⟨2, 2, 2, 0, 0, 0, 0, 5⟩]) = False :=
  ⟨⟨List.Perm.swap _ _ _, by decide⟩, rfl, eq_false (by decide)⟩

/-!  Weight bookkeeping across one round and across the loop. -/

theorem sumCounters_cons (c : KMeanCluster) (cs : List KMeanCluster) :
    sumCounters (c :: cs) = c.counter + sumCounters cs := by
  simp [sumCounters]

theorem sumWeights_cons (c : KMeanCluster) (cs : List KMeanCluster) :
    sumWeights (c :: cs) = c.weight + sumWeights cs := by
  simp [sumWeights]

theorem counter_le_sumCounters {c : KMeanCluster} {cs : List KMeanCluster}
    (h : c ∈ cs) : c.counter ≤ sumCounters cs :=
  List.single_le_sum (fun _ _ => Nat.zero_le _) _ (List.mem_map_of_mem _ h)

theorem sumCounters_eq_zero {cs : List KMeanCluster}
    (h : ∀ c ∈ cs, c.counter = 0) : sumCounters cs = 0 := by
  unfold sumCounters
  apply List.sum_eq_zero
  intro x hx
  obtain ⟨c, hc, rfl⟩ := List.mem_map.mp hx
  exact h c hc

theorem sumCounters_modifyAt {r g b : Nat} :
    ∀ (cs : List KMeanCluster) (i : Nat), i < cs.length →
      sumCounters cs < 4294967295 →
      sumCounters (modifyAt (fun k => AddPoint k r g b) cs i) = sumCounters cs + 1 := by
  intro cs
  induction cs with
  | nil => intro i hi; cases hi
  | cons c rest ih =>
    intro i hi hbd
    cases i with
    | zero =>
      show sumCounters (AddPoint c r g b :: rest) = _
      rw [sumCounters_cons, sumCounters_cons]
      have hc : c.counter ≤ sumCounters (c :: rest) :=
        counter_le_sumCounters (List.mem_cons_self c rest)
      rw [sumCounters_cons] at hc
      have : (AddPoint c r g b).counter = c.counter + 1 := by
        show u32 (c.counter + 1) = c.counter + 1
        unfold u32
        rw [sumCounters_cons] at hbd
        omega
      rw [this]
      omega
    | succ i =>
      show sumCounters (c :: modifyAt (fun k => AddPoint k r g b) rest i) = _
      rw [sumCounters_cons, sumCounters_cons]
      rw [sumCounters_cons] at hbd
      rw [ih i (by simpa using hi) (by omega)]
      omega

theorem countOpaque_cons (p : Pix) (ps : List Pix) :
    countOpaque (p :: ps) = countOpaque ps + if p.a ≠ 0 then 1 else 0 := by
  simp [countOpaque, List.countP_cons]

theorem assignList_counters : ∀ (ps : List Pix) (cs : List KMeanCluster),
    cs ≠ [] → (∀ c ∈ cs, Bounded8 c) →
    sumCounters cs + ps.length < 4294967295 →
    ∃ cs', assignList cs ps = some cs' ∧ cs'.length = cs.length ∧
      (∀ c ∈ cs', Bounded8 c) ∧
      sumCounters cs' = sumCounters cs + countOpaque ps := by
  intro ps
  induction ps with
  | nil =>
    intro cs _ hb _
    exact ⟨cs, rfl, rfl, hb, by simp [countOpaque]⟩
  | cons p ps ih =>
    intro cs h hb hbd
    by_cases hp : p.a = 0
    · obtain ⟨cs', h1, h2, h3, h4⟩ := ih cs h hb (by
        simp only [List.length_cons] at hbd
        omega)
      refine ⟨cs', ?_, h2, h3, ?_⟩
      · simp only [assignList, assignPoint, if_pos hp]
        exact h1
      · rw [h4, countOpaque_cons, if_neg (by simpa using hp)]
        omega
    · have hsome := Closest_isSome h hb (to8_lt p.r) (to8_lt p.g) (to8_lt p.b)
      obtain ⟨i, hi⟩ := Option.isSome_iff_exists.mp hsome
      have hilt : i < cs.length := Closest_lt_length hi
      have hlen := modifyAt_length (fun k => AddPoint k (to8 p.r) (to8 p.g) (to8 p.b)) cs i
      have hsum : sumCounters (modifyAt (fun k => AddPoint k (to8 p.r) (to8 p.g) (to8 p.b)) cs i) =
          sumCounters cs + 1 := by
        apply sumCounters_modifyAt cs i hilt
        simp only [List.length_cons] at hbd
        omega
      have hb1 : ∀ c ∈ modifyAt (fun k => AddPoint k (to8 p.r) (to8 p.g) (to8 p.b)) cs i,
          Bounded8 c :=
        modifyAt_forall (fun c hc => AddPoint_bounded hc) cs i hb
      have hne1 : modifyAt (fun k => AddPoint k (to8 p.r) (to8 p.g) (to8 p.b)) cs i ≠ [] := by
        intro hcon
        apply h
        have : cs.length = 0 := by rw [← hlen, hcon]; rfl
        exact List.length_eq_zero.mp this
      obtain ⟨cs', h1, h2, h3, h4⟩ := ih _ hne1 hb1 (by
        rw [hsum]
        simp only [List.length_cons] at hbd
        omega)
      refine ⟨cs', ?_, by rw [h2, hlen], h3, ?_⟩
      · simp only [assignList, assignPoint, if_neg hp, hi]
        exact h1
      · rw [h4, hsum, countOpaque_cons, if_pos (by simpa using hp)]
        omega

theorem RecomputeCentroid_weight_pos {k : KMeanCluster} (h : 0 < k.counter) :
    (RecomputeCentroid k).weight = k.counter := by
  unfold RecomputeCentroid
  rw [if_pos h]

theorem convergeStep_weights : ∀ cs : List KMeanCluster,
    (∀ c ∈ cs, 0 < c.counter) →
    sumWeights (convergeStep cs).1 = sumCounters cs := by
  intro cs
  induction cs with
  | nil => intro _; rfl
  | cons c rest ih =>
    intro h
    show sumWeights (RecomputeCentroid c :: (convergeStep rest).1) = _
    rw [sumWeights_cons, sumCounters_cons,
      RecomputeCentroid_weight_pos (h c (List.mem_cons_self c rest)),
      ih (fun x hx => h x (List.mem_cons_of_mem c hx))]

/-- The loop invariant behind weight conservation: starting a round with
all counters cleared, if no cluster starves in any executed round then
the final weights sum to exactly the number of non-transparent pixels. -/
theorem kmeansIterate_weights (img : Img) : ∀ (fuel : Nat) (cs : List KMeanCluster),
    cs ≠ [] → (∀ c ∈ cs, Bounded8 c) → (∀ c ∈ cs, c.counter = 0) →
    (pixels img).length < 4294967295 →
    noStarve img (fuel + 1) cs = true →
    ∃ cs', kmeansIterate img (fuel + 1) cs = some cs' ∧
      sumWeights cs' = countOpaque (pixels img) := by
  intro fuel
  induction fuel with
  | zero =>
    intro cs hne hb hz hlen hns
    have hzero : sumCounters cs = 0 := sumCounters_eq_zero hz
    obtain ⟨cs1, h1, h2, h3, h4⟩ :=
      assignList_counters (pixels img) cs hne hb (by omega)
    have hemp : cs.isEmpty = false := by
      cases cs with
      | nil => exact absurd rfl hne
      | cons c rest => rfl
    simp only [noStarve, hemp, Bool.false_eq_true, if_false, h1,
      Bool.and_eq_true] at hns
    have hpos : ∀ c ∈ cs1, 0 < c.counter := by
      intro c hc
      have := (List.all_eq_true.mp hns.1) c hc
      simpa using this
    have hw : sumWeights (convergeStep cs1).1 = countOpaque (pixels img) := by
      rw [convergeStep_weights cs1 hpos, h4, hzero]
      omega
    refine ⟨(convergeStep cs1).1, ?_, hw⟩
    simp only [kmeansIterate, hemp, Bool.false_eq_true, if_false, h1]
    by_cases hc : (convergeStep cs1).2 = true
    · simp [hc]
    · simp [hc, kmeansIterate]
  | succ fuel ih =>
    intro cs hne hb hz hlen hns
    have hzero : sumCounters cs = 0 := sumCounters_eq_zero hz
    obtain ⟨cs1, h1, h2, h3, h4⟩ :=
      assignList_counters (pixels img) cs hne hb (by omega)
    have hemp : cs.isEmpty = false := by
      cases cs with
      | nil => exact absurd rfl hne
      | cons c rest => rfl
    simp only [noStarve, hemp, Bool.false_eq_true, if_false, h1,
      Bool.and_eq_true] at hns
    have hpos : ∀ c ∈ cs1, 0 < c.counter := by
      intro c hc
      have := (List.all_eq_true.mp hns.1) c hc
      simpa using this
    have hw : sumWeights (convergeStep cs1).1 = countOpaque (pixels img) := by
      rw [convergeStep_weights cs1 hpos, h4, hzero]
      omega
    by_cases hc : (convergeStep cs1).2 = true
    · refine ⟨(convergeStep cs1).1, ?_, hw⟩
      simp only [kmeansIterate, hemp, Bool.false_eq_true, if_false, h1]
      simp [hc]
    · have hns2 : noStarve img (fuel + 1) (convergeStep cs1).1 = true := by
        have h5 := hns.2
        rw [if_neg hc] at h5
        exact h5
      have hne2 : (convergeStep cs1).1 ≠ [] := by
        intro hcon
        apply hne
        have : cs.length = 0 := by
          rw [← h2, ← convergeStep_length cs1, hcon]
          rfl
        exact List.length_eq_zero.mp this
      obtain ⟨cs', hit, hsum⟩ := ih (convergeStep cs1).1 hne2
        (convergeStep_bounded cs1 h3) (convergeStep_counter_zero cs1) hlen hns2
      refine ⟨cs', ?_, hsum⟩
      simp only [kmeansIterate, hemp, Bool.false_eq_true, if_false, h1]
      simp only [hc, if_false]
      exact hit

/-!  Seeding postconditions and pixel-grid bookkeeping. -/

theorem seedTries_some_post (img : Img) (pts : Nat → Nat × Nat) :
    ∀ (j t : Nat) (cs : List KMeanCluster) (c : KMeanCluster) (t' : Nat),
      seedTries img pts j t cs = some (some c, t') →
      Bounded8 c ∧ c.counter = 0 ∧ c.weight = 0 := by
  intro j
  induction j with
  | zero =>
    intro t cs c t' h
    simp [seedTries] at h
  | succ j ih =>
    intro t cs c t' h
    simp only [seedTries] at h
    split at h
    · cases h
    · split at h
      · exact ih (t + 1) cs c t' h
      · split at h
        · exact ih (t + 1) cs c t' h
        · cases h
          exact ⟨⟨to8_lt _, to8_lt _, to8_lt _⟩, rfl, rfl⟩

theorem seedClusters_post (img : Img) (pts : Nat → Nat × Nat) :
    ∀ (n t : Nat) (acc : List KMeanCluster) (res : List KMeanCluster × Nat),
      (∀ c ∈ acc, Bounded8 c ∧ c.counter = 0 ∧ c.weight = 0) →
      seedClusters img pts n t acc = some res →
      ∀ c ∈ res.1, Bounded8 c ∧ c.counter = 0 ∧ c.weight = 0 := by
  intro n
  induction n with
  | zero =>
    intro t acc res hacc h
    simp only [seedClusters] at h
    cases h
    exact hacc
  | succ n ih =>
    intro t acc res hacc h
    simp only [seedClusters] at h
    rcases hT : seedTries img pts maxSample t acc with _ | ⟨oc, t'⟩
    · rw [hT] at h; cases h
    · rw [hT] at h
      cases oc with
      | none => cases h; exact hacc
      | some c =>
        have hc := seedTries_some_post img pts maxSample t acc c t' hT
        refine ih t' (acc ++ [c]) res ?_ h
        intro x hx
        rcases List.mem_append.mp hx with h1 | h1
        · exact hacc x h1
        · rw [List.mem_singleton.mp h1]
          exact hc

theorem seedClusters_length_mono (img : Img) (pts : Nat → Nat × Nat) :
    ∀ (n t : Nat) (acc : List KMeanCluster) (res : List KMeanCluster × Nat),
      seedClusters img pts n t acc = some res → acc.length ≤ res.1.length := by
  intro n
  induction n with
  | zero =>
    intro t acc res h
    simp only [seedClusters] at h
    cases h
    exact Nat.le_refl _
  | succ n ih =>
    intro t acc res h
    simp only [seedClusters] at h
    rcases hT : seedTries img pts maxSample t acc with _ | ⟨oc, t'⟩
    · rw [hT] at h; cases h
    · rw [hT] at h
      cases oc with
      | none => cases h; exact Nat.le_refl _
      | some c =>
        have := ih t' (acc ++ [c]) res h
        simp only [List.length_append, List.length_singleton] at this
        omega

theorem seedTries_first_hit (img : Img) (pts : Nat → Nat × Nat)
    (hw : 0 < img.width) (hh : 0 < img.height) (t : Nat)
    (hop : ¬(img.px (pts t).1 (pts t).2).a = 0) :
    seedTries img pts maxSample t [] =
      some (some (mkCluster (to8 (img.px (pts t).1 (pts t).2).r)
        (to8 (img.px (pts t).1 (pts t).2).g)
        (to8 (img.px (pts t).1 (pts t).2).b)), t + 1) := by
  show seedTries img pts (9 + 1) t [] = _
  simp only [seedTries]
  rw [if_neg (by omega), if_neg hop, if_neg (by simp [ContainsCentroid])]

theorem seedClusters_succ_some (img : Img) (pts : Nat → Nat × Nat)
    {t t' : Nat} {acc : List KMeanCluster} {c : KMeanCluster} (n : Nat)
    (hT : seedTries img pts maxSample t acc = some (some c, t')) :
    seedClusters img pts (n + 1) t acc = seedClusters img pts n t' (acc ++ [c]) := by
  simp only [seedClusters, hT]

theorem seedClusters_ne_nil (img : Img) (pts : Nat → Nat × Nat)
    (hw : 0 < img.width) (hh : 0 < img.height) (hv : ValidPts img pts)
    (hop : ∀ x y, x < img.width → y < img.height → (img.px x y).a ≠ 0) :
    ∀ (n : Nat) (res : List KMeanCluster × Nat), 0 < n →
      seedClusters img pts n 0 [] = some res → res.1 ≠ [] := by
  intro n res hn h
  match n, hn with
  | n + 1, _ =>
    rw [seedClusters_succ_some img pts n
      (seedTries_first_hit img pts hw hh 0 (hop _ _ (hv 0).1 (hv 0).2))] at h
    have := seedClusters_length_mono img pts n 1 _ res h
    intro hcon
    rw [hcon] at this
    simp at this

theorem kmeansIterate_nil (img : Img) : ∀ fuel : Nat,
    kmeansIterate img fuel [] = some [] := by
  intro fuel
  cases fuel with
  | zero => rfl
  | succ fuel => rfl

theorem range_map_const_sum (m : Nat) : ∀ n : Nat,
    ((List.range n).map (fun _ => m)).sum = n * m := by
  intro n
  induction n with
  | zero => simp
  | succ n ih =>
    rw [List.range_succ]
    simp [ih, Nat.succ_mul]

theorem pixels_length (img : Img) :
    (pixels img).length = img.width * img.height := by
  unfold pixels
  rw [List.length_flatMap]
  simp only [Function.comp_def, List.length_map, List.length_range]
  exact range_map_const_sum img.height img.width

theorem pixels_mem (img : Img) :
    ∀ p ∈ pixels img, ∃ x y, x < img.width ∧ y < img.height ∧ p = img.px x y := by
  intro p hp
  unfold pixels at hp
  obtain ⟨x, hx, hp2⟩ := List.mem_flatMap.mp hp
  obtain ⟨y, hy, hp3⟩ := List.mem_map.mp hp2
  exact ⟨x, y, List.mem_range.mp hx, List.mem_range.mp hy, hp3.symm⟩

theorem countOpaque_le_length (ps : List Pix) : countOpaque ps ≤ ps.length :=
  List.countP_le_length _

theorem countOpaque_eq_length {ps : List Pix} (h : ∀ p ∈ ps, p.a ≠ 0) :
    countOpaque ps = ps.length := by
  unfold countOpaque
  refine List.countP_eq_length.mpr ?_
  intro p hp
  simpa using h p hp

theorem weightSum_map (cs : List KMeanCluster) (T : Rat) :
    weightSum (cs.map (clusterColor T)) = ((sumWeights cs : Nat) : Rat) / T := by
  induction cs with
  | nil => simp [weightSum, sumWeights]
  | cons c rest ih =>
    have h1 : weightSum (clusterColor T c :: rest.map (clusterColor T)) =
        (c.weight : Rat) / T + weightSum (rest.map (clusterColor T)) := by
      simp [weightSum, clusterColor]
    rw [List.map_cons, h1, ih, sumWeights_cons]
    push_cast
    ring

theorem weightSum_perm {l1 l2 : List KMeanCluster} (h : l1.Perm l2) (T : Rat) :
    weightSum (l1.map (clusterColor T)) = weightSum (l2.map (clusterColor T)) := by
  unfold weightSum
  exact List.Perm.sum_eq ((h.map _).map _)

theorem normN_pos (nc : Int) : 0 < normN nc := by
  unfold normN
  split
  · norm_num [nClustersDefault]
  · rename_i h
    omega

/-- C1 (amended): provided that in every executed round every cluster
receives at least one pixel (no starvation), the normalized weights
returned by `FindWeight` sum to at most 1, with equality exactly when no
pixel is transparent.  Without the no-starvation proviso the claim fails:
a cluster that receives no pixels in the final round keeps its stale
weight from an earlier round and the sum can exceed 1 (see the
counterexample).  The grid sides are bounded by the resize cap 256, under
which the `uint32` counters cannot wrap. -/
theorem weight_conservation_no_starvation (img : Img) (pts : Nat → Nat × Nat)
    (nc : Int) (out : List ColorW)
    (hw : 0 < img.width) (hh : 0 < img.height)
    (hW : img.width ≤ 256) (hH : img.height ≤ 256)
    (hv : ValidPts img pts)
    (hns : noStarveFind img pts nc = true)
    (hrel : FindWeightRel img pts nc out) :
    weightSum out ≤ 1 ∧
    ((∀ x y, x < img.width → y < img.height → (img.px x y).a ≠ 0) →
      weightSum out = 1) := by
  obtain ⟨cs, sorted, hFC, ⟨hperm, _⟩, hout⟩ := hrel
  have hplen : (pixels img).length = img.width * img.height := pixels_length img
  have hlenlt : (pixels img).length < 4294967295 := by
    rw [hplen]
    calc img.width * img.height ≤ 256 * 256 := Nat.mul_le_mul hW hH
    _ < 4294967295 := by norm_num
  have hTpos : (0 : Rat) < ((img.width * img.height : Nat) : Rat) := by
    have : 0 < img.width * img.height := Nat.mul_pos hw hh
    exact_mod_cast this
  unfold findClusters at hFC
  unfold noStarveFind at hns
  rcases hSeed : seedClusters img pts (normN nc) 0 [] with _ | ⟨cs0, t0⟩
  · rw [hSeed] at hFC
    cases hFC
  · rw [hSeed] at hFC hns
    dsimp only at hFC hns
    have hpost := seedClusters_post img pts (normN nc) 0 [] (cs0, t0)
      (by intro c hc; cases hc) hSeed
    by_cases hcs0 : cs0 = []
    · subst hcs0
      rw [kmeansIterate_nil img nIterations] at hFC
      injection hFC with hFC
      subst hFC
      have hsx : sorted = [] := List.Perm.eq_nil hperm
      subst hsx
      have hox : out = [] := by simpa using hout
      subst hox
      constructor
      · show weightSum [] ≤ 1
        norm_num [weightSum]
      · intro hop
        exact absurd rfl (seedClusters_ne_nil img pts hw hh hv hop (normN nc)
          ([], t0) (normN_pos nc) hSeed)
    · have hFC' : kmeansIterate img (49 + 1) cs0 = some cs := hFC
      have hns' : noStarve img (49 + 1) cs0 = true := hns
      obtain ⟨cs'', hit, hsum⟩ := kmeansIterate_weights img 49 cs0 hcs0
        (fun c hc => (hpost c hc).1) (fun c hc => (hpost c hc).2.1) hlenlt hns'
      rw [hit] at hFC'
      injection hFC' with hFC'
      subst hFC'
      have hws : weightSum out =
          ((sumWeights cs'' : Nat) : Rat) / ((img.width * img.height : Nat) : Rat) := by
        rw [hout, weightSum_perm hperm, weightSum_map]
      rw [hws, hsum]
      constructor
      · rw [div_le_one hTpos]
        have : countOpaque (pixels img) ≤ img.width * img.height := by
          rw [← hplen]
          exact countOpaque_le_length _
        exact_mod_cast this
      · intro hop
        have hco : countOpaque (pixels img) = img.width * img.height := by
          rw [countOpaque_eq_length, hplen]
          intro p hp
          obtain ⟨x, y, hx, hy, hpx⟩ := pixels_mem img p hp
          rw [hpx]
          exact hop x y hx hy
        rw [hco]
        exact div_self (ne_of_gt hTpos)

/-- Witness for C1 (amended) at the 2×2 monochrome image, where the
single cluster takes every pixel in every round. -/
theorem weight_conservation_witness :
    weightSum ([⟨7, 7, 7, 0, 0, 0, 0, 4⟩].map
      (clusterColor ((imgMono.width * imgMono.height : Nat) : Rat))) ≤ 1 :=
  (weight_conservation_no_starvation imgMono ptsZero 4 _ (by decide) (by decide)
    (by decide) (by decide) (fun _ => ⟨Nat.zero_lt_two, Nat.zero_lt_two⟩) (by decide)
    ⟨[⟨7, 7, 7, 0, 0, 0, 0, 4⟩], [⟨7, 7, 7, 0, 0, 0, 0, 4⟩], by decide,
      ⟨List.Perm.refl _, by simp⟩, rfl⟩).1

/-- Counterexample to C1 as stated: on the fully opaque 5×1 image `img5`
(colors 0,1,4,5,8, three requested clusters seeded 0,8,1) the third
cluster is starved from round 2 on and keeps its stale weight 2, so the
final weights are 3,2,2 out of 5 pixels and the normalized weights sum to
7/5 > 1 — although the image contains no transparent pixels. -/
theorem weight_sum_exceeds_one_cex :
    FindWeightRel img5 pts5 3
      ([⟨5, 0, 0, 0, 0, 0, 0, 3⟩, ⟨0, 0, 0, 0, 0, 0, 0, 2⟩, ⟨2, 0, 0, 0, 0, 0, 0, 2⟩].map
        (clusterColor ((img5.width * img5.height : Nat) : Rat))) ∧
    countOpaque (pixels img5) = img5.width * img5.height ∧
    (weightSum
      ([⟨5, 0, 0, 0, 0, 0, 0, 3⟩, ⟨0, 0, 0, 0, 0, 0, 0, 2⟩, ⟨2, 0, 0, 0, 0, 0, 0, 2⟩].map
        (clusterColor ((img5.width * img5.height : Nat) : Rat))) ≤ 1) = False := by
  refine ⟨⟨[⟨0, 0, 0, 0, 0, 0, 0, 2⟩, ⟨5, 0, 0, 0, 0, 0, 0, 3⟩, ⟨2, 0, 0, 0, 0, 0, 0, 2⟩],
    [⟨5, 0, 0, 0, 0, 0, 0, 3⟩, ⟨0, 0, 0, 0, 0, 0, 0, 2⟩, ⟨2, 0, 0, 0, 0, 0, 0, 2⟩],
    by decide, ⟨List.Perm.swap _ _ _, by decide⟩, rfl⟩, by decide, eq_false ?_⟩
  intro hcon
  norm_num [weightSum, clusterColor, img5] at hcon

/-!  The monochrome image: a single cluster taking every pixel. -/

theorem kmeansIterate_succ_conv (img : Img) (fuel : Nat)
    (cs cs1 : List KMeanCluster) (hne : cs.isEmpty = false)
    (hA : assignList cs (pixels img) = some cs1)
    (hconv : (convergeStep cs1).2 = true) :
    kmeansIterate img (fuel + 1) cs = some (convergeStep cs1).1 := by
  simp only [kmeansIterate, hne, Bool.false_eq_true, if_false, hA, hconv, if_true]

theorem seedTries_dup (img : Img) (pts : Nat → Nat × Nat) (p0 : Pix)
    (hw : 0 < img.width) (hh : 0 < img.height) (hv : ValidPts img pts)
    (hmono : ∀ x y, x < img.width → y < img.height → img.px x y = p0)
    (hop : ¬p0.a = 0) :
    ∀ (j t : Nat),
      seedTries img pts j t [mkCluster (to8 p0.r) (to8 p0.g) (to8 p0.b)] =
        some (none, t + j) := by
  intro j
  induction j with
  | zero => intro t; simp [seedTries]
  | succ j ih =>
    intro t
    have hp : img.px (pts t).1 (pts t).2 = p0 := hmono _ _ (hv t).1 (hv t).2
    simp only [seedTries]
    rw [if_neg (by omega), hp, if_neg hop,
      if_pos (by simp [ContainsCentroid, IsAtCentroid, mkCluster, SetCentroid]),
      ih (t + 1)]
    have : t + 1 + j = t + (j + 1) := by omega
    rw [this]

theorem seedClusters_mono (img : Img) (pts : Nat → Nat × Nat) (p0 : Pix)
    (hw : 0 < img.width) (hh : 0 < img.height) (hv : ValidPts img pts)
    (hmono : ∀ x y, x < img.width → y < img.height → img.px x y = p0)
    (hop : ¬p0.a = 0) (n : Nat) (hn : 0 < n) :
    ∃ t', seedClusters img pts n 0 [] =
      some ([mkCluster (to8 p0.r) (to8 p0.g) (to8 p0.b)], t') := by
  have hp : img.px (pts 0).1 (pts 0).2 = p0 := hmono _ _ (hv 0).1 (hv 0).2
  have hfirst : seedTries img pts maxSample 0 [] =
      some (some (mkCluster (to8 p0.r) (to8 p0.g) (to8 p0.b)), 1) := by
    have h1 := seedTries_first_hit img pts hw hh 0 (by rw [hp]; exact hop)
    rw [hp] at h1
    exact h1
  match n, hn with
  | 1, _ =>
    rw [seedClusters_succ_some img pts 0 hfirst]
    exact ⟨1, by simp [seedClusters]⟩
  | m + 2, _ =>
    rw [seedClusters_succ_some img pts (m + 1) hfirst]
    refine ⟨1 + maxSample, ?_⟩
    have hd := seedTries_dup img pts p0 hw hh hv hmono hop maxSample 1
    simp only [List.nil_append, seedClusters, hd]

theorem assignList_mono (p0 : Pix) (hop : ¬p0.a = 0) :
    ∀ (ps : List Pix) (j w : Nat),
      (∀ p ∈ ps, p = p0) → j + ps.length ≤ 65536 →
      assignList [⟨to8 p0.r, to8 p0.g, to8 p0.b,
          j * to8 p0.r, j * to8 p0.g, j * to8 p0.b, j, w⟩] ps =
        some [⟨to8 p0.r, to8 p0.g, to8 p0.b,
          (j + ps.length) * to8 p0.r, (j + ps.length) * to8 p0.g,
          (j + ps.length) * to8 p0.b, j + ps.length, w⟩] := by
  intro ps
  induction ps with
  | nil => intro j w _ _; simp [assignList]
  | cons p ps ih =>
    intro j w hall hbd
    have hp : p = p0 := hall p (List.mem_cons_self p ps)
    subst hp
    simp only [List.length_cons] at hbd ⊢
    have hK : Bounded8 (⟨to8 p.r, to8 p.g, to8 p.b,
        j * to8 p.r, j * to8 p.g, j * to8 p.b, j, w⟩ : KMeanCluster) :=
      ⟨to8_lt _, to8_lt _, to8_lt _⟩
    have hd := GetDistanceSqr_lt hK (to8_lt p.r) (to8_lt p.g) (to8_lt p.b)
    have hclosest : Closest [⟨to8 p.r, to8 p.g, to8 p.b,
        j * to8 p.r, j * to8 p.g, j * to8 p.b, j, w⟩]
        (to8 p.r) (to8 p.g) (to8 p.b) = some 0 := by
      unfold Closest
      simp only [closestAux]
      rw [if_pos hd]
    have hmul : ∀ v : Nat, v < 256 → (j * v + v) % 4294967296 = (j + 1) * v := by
      intro v hv256
      have e1 : j * v + v = (j + 1) * v := by ring
      rw [e1]
      apply Nat.mod_eq_of_lt
      calc (j + 1) * v ≤ 65536 * 255 := Nat.mul_le_mul (by omega) (by omega)
      _ < 4294967296 := by norm_num
    have hadd : AddPoint ⟨to8 p.r, to8 p.g, to8 p.b,
        j * to8 p.r, j * to8 p.g, j * to8 p.b, j, w⟩
        (to8 p.r) (to8 p.g) (to8 p.b) =
        ⟨to8 p.r, to8 p.g, to8 p.b,
          (j + 1) * to8 p.r, (j + 1) * to8 p.g, (j + 1) * to8 p.b, j + 1, w⟩ := by
      show KMeanCluster.mk (to8 p.r) (to8 p.g) (to8 p.b)
        (u32 (j * to8 p.r + to8 p.r)) (u32 (j * to8 p.g + to8 p.g))
        (u32 (j * to8 p.b + to8 p.b)) (u32 (j + 1)) w = _
      unfold u32
      rw [hmul _ (to8_lt p.r), hmul _ (to8_lt p.g), hmul _ (to8_lt p.b),
        Nat.mod_eq_of_lt (show j + 1 < 4294967296 by omega)]
    show assignList _ (p :: ps) = _
    simp only [assignList, assignPoint, if_neg hop, hclosest]
    show assignList [AddPoint _ (to8 p.r) (to8 p.g) (to8 p.b)] ps = _
    rw [hadd]
    have htail : ∀ q ∈ ps, q = p := fun q hq => hall q (List.mem_cons_of_mem p hq)
    have := ih (j + 1) w htail (by omega)
    rw [this]
    have e : j + 1 + ps.length = j + (ps.length + 1) := by omega
    rw [e]

theorem findClusters_mono (img : Img) (pts : Nat → Nat × Nat) (p0 : Pix)
    (hw : 0 < img.width) (hh : 0 < img.height)
    (hW : img.width ≤ 256) (hH : img.height ≤ 256) (hv : ValidPts img pts)
    (hmono : ∀ x y, x < img.width → y < img.height → img.px x y = p0)
    (hop : ¬p0.a = 0) (n : Nat) (hn : 0 < n) :
    findClusters img pts n =
      some [⟨to8 p0.r, to8 p0.g, to8 p0.b, 0, 0, 0, 0, img.width * img.height⟩] := by
  have hP : 0 < img.width * img.height := Nat.mul_pos hw hh
  have hall : ∀ p ∈ pixels img, p = p0 := by
    intro p hp
    obtain ⟨x, y, hx, hy, e⟩ := pixels_mem img p hp
    rw [e]
    exact hmono x y hx hy
  obtain ⟨t', hS⟩ := seedClusters_mono img pts p0 hw hh hv hmono hop n hn
  unfold findClusters
  rw [hS]
  dsimp only
  have hlen : (pixels img).length ≤ 65536 := by
    rw [pixels_length]
    calc img.width * img.height ≤ 256 * 256 := Nat.mul_le_mul hW hH
    _ = 65536 := by norm_num
  have hround := assignList_mono p0 hop (pixels img) 0 0 hall (by omega)
  have h0 : (⟨to8 p0.r, to8 p0.g, to8 p0.b, 0 * to8 p0.r, 0 * to8 p0.g, 0 * to8 p0.b,
      0, 0⟩ : KMeanCluster) = mkCluster (to8 p0.r) (to8 p0.g) (to8 p0.b) := by
    simp [mkCluster, SetCentroid]
  rw [h0] at hround
  simp only [Nat.zero_add, pixels_length] at hround
  have hcmp : CompareCentroidWithAggregate
      ⟨to8 p0.r, to8 p0.g, to8 p0.b,
        img.width * img.height * to8 p0.r, img.width * img.height * to8 p0.g,
        img.width * img.height * to8 p0.b, img.width * img.height, 0⟩ = true := by
    unfold CompareCentroidWithAggregate
    dsimp only
    rw [if_neg (by omega)]
    have e1 : ∀ v : Nat, v < 256 →
        img.width * img.height * v / (img.width * img.height) % 256 = v := by
      intro v hv256
      rw [Nat.mul_div_cancel_left _ hP, Nat.mod_eq_of_lt hv256]
    simp [e1 _ (to8_lt p0.r), e1 _ (to8_lt p0.g), e1 _ (to8_lt p0.b)]
  have hrec : RecomputeCentroid
      ⟨to8 p0.r, to8 p0.g, to8 p0.b,
        img.width * img.height * to8 p0.r, img.width * img.height * to8 p0.g,
        img.width * img.height * to8 p0.b, img.width * img.height, 0⟩ =
      ⟨to8 p0.r, to8 p0.g, to8 p0.b, 0, 0, 0, 0, img.width * img.height⟩ := by
    unfold RecomputeCentroid
    dsimp only
    rw [if_pos hP]
    have e1 : ∀ v : Nat, v < 256 →
        img.width * img.height * v / (img.width * img.height) % 256 = v := by
      intro v hv256
      rw [Nat.mul_div_cancel_left _ hP, Nat.mod_eq_of_lt hv256]
    show KMeanCluster.mk _ _ _ _ _ _ _ _ = _
    rw [e1 _ (to8_lt p0.r), e1 _ (to8_lt p0.g), e1 _ (to8_lt p0.b)]
  have hcs : convergeStep
      [⟨to8 p0.r, to8 p0.g, to8 p0.b,
        img.width * img.height * to8 p0.r, img.width * img.height * to8 p0.g,
        img.width * img.height * to8 p0.b, img.width * img.height, 0⟩] =
      ([⟨to8 p0.r, to8 p0.g, to8 p0.b, 0, 0, 0, 0, img.width * img.height⟩], true) := by
    show (RecomputeCentroid _ :: [], CompareCentroidWithAggregate _ && true) = _
    rw [hrec, hcmp]
    rfl
  have hne2 : ([mkCluster (to8 p0.r) (to8 p0.g) (to8 p0.b)] :
      List KMeanCluster).isEmpty = false := rfl
  have hfin := kmeansIterate_succ_conv img 49 _ _ hne2 hround (by rw [hcs])
  show kmeansIterate img (49 + 1) [mkCluster (to8 p0.r) (to8 p0.g) (to8 p0.b)] = _
  rw [hfin, hcs]

/-- C7: for every non-empty image all of whose pixels carry one and the
same non-transparent color, the pipeline produces exactly one cluster,
that cluster's centroid is that color (in 8-bit channels), and its
normalized weight is exactly 1. -/
theorem monochrome_collapse (img : Img) (pts : Nat → Nat × Nat) (nc : Int)
    (p0 : Pix) (out : List ColorW)
    (hw : 0 < img.width) (hh : 0 < img.height)
    (hW : img.width ≤ 256) (hH : img.height ≤ 256) (hv : ValidPts img pts)
    (hmono : ∀ x y, x < img.width → y < img.height → img.px x y = p0)
    (hop : p0.a ≠ 0)
    (hrel : FindWeightRel img pts nc out) :
    out = [⟨to8 p0.r, to8 p0.g, to8 p0.b, 255, 1⟩] := by
  obtain ⟨cs, sorted, hFC, ⟨hperm, _⟩, hout⟩ := hrel
  rw [findClusters_mono img pts p0 hw hh hW hH hv hmono hop (normN nc)
    (normN_pos nc)] at hFC
  injection hFC with hFC
  subst hFC
  have hs : sorted =
      [⟨to8 p0.r, to8 p0.g, to8 p0.b, 0, 0, 0, 0, img.width * img.height⟩] :=
    List.perm_singleton.mp hperm
  subst hs
  rw [hout]
  simp only [List.map_cons, List.map_nil, clusterColor]
  have hne : ((img.width * img.height : Nat) : Rat) ≠ 0 := by
    have : 0 < img.width * img.height := Nat.mul_pos hw hh
    exact_mod_cast Nat.pos_iff_ne_zero.mp this
  rw [div_self hne]

/-- Witness for C7 at the concrete 2×2 monochrome image of 8-bit color
(7,7,7). -/
theorem monochrome_collapse_witness :
    ([⟨7, 7, 7, 0, 0, 0, 0, 4⟩].map
      (clusterColor ((imgMono.width * imgMono.height : Nat) : Rat))) =
    [⟨to8 (1799 : Nat), to8 (1799 : Nat), to8 (1799 : Nat), 255, 1⟩] :=
  monochrome_collapse imgMono ptsZero 4 ⟨1799, 1799, 1799, 65535⟩ _
    (by decide) (by decide) (by decide) (by decide)
    (fun _ => ⟨Nat.zero_lt_two, Nat.zero_lt_two⟩)
    (fun x y _ _ => rfl) (by decide)
    ⟨[⟨7, 7, 7, 0, 0, 0, 0, 4⟩], [⟨7, 7, 7, 0, 0, 0, 0, 4⟩], by decide,
      ⟨List.Perm.refl _, by simp⟩, rfl⟩

end DominantColor
